import Mathlib

/-!
Shallow embedding of the Count-Min Sketch implementation in `src/src/lib.rs`
(`count-min-sketch-rust`).  Machine integers (`u64`, `usize`) are modelled as
`ℕ` with explicit `% 2 ^ 64` where the source wraps, and saturating addition
clamps at `2 ^ 64 - 1`.  The external `ahash::RandomState` keyed hash is
abstracted as a function `ℕ → ℕ` supplied at construction (its `u64` output is
modelled by reducing `% 2 ^ 64`); every property proved here holds for an
arbitrary such hash.  The unchecked table accesses of the source are modelled
by total `List.getD`/`List.set` (out-of-range reads default, writes are no-ops);
the in-bounds theorem for the index scheme justifies that for constructed
sketches no access is ever out of range.
-/

namespace CMSRust

/-- The value `u64::MAX`, the saturation bound of every counter. -/
def U64_MAX : ℕ := 2 ^ 64 - 1

/-- Saturating addition `u64::saturating_add`, clamped at `u64::MAX`. -/
def satAdd (a b : ℕ) : ℕ := min (a + b) U64_MAX

/-- Absolute difference `u64::abs_diff`. -/
def u64AbsDiff (a b : ℕ) : ℕ := if b ≤ a then a - b else b - a

/-- Fuel-driven helper for `usize::next_power_of_two`: halving (rounding up)
until reaching 1 and doubling back up yields the least power of two that is
greater than or equal to the argument. -/
def np2Aux : ℕ → ℕ → ℕ
  | 0, _ => 1
  | fuel + 1, n => if n ≤ 1 then 1 else 2 * np2Aux fuel ((n + 1) / 2)

/-- Rust `usize::next_power_of_two` (line 39/40/56/57 of the source): the smallest
power of two greater than or equal to `n` (and `1` for `n = 0`). -/
def next_power_of_two (n : ℕ) : ℕ := np2Aux n n

/-- The sketch state (struct `CountMinSketch`, lines 11-17): dimensions, the
flat row-major counter table, and the seeded hash configuration, the latter
abstracted as a function from items (modelled as `ℕ`) to hash values. -/
structure CountMinSketch where
  width : ℕ
  width_mask : ℕ
  depth : ℕ
  table : List ℕ
  hasher : ℕ → ℕ

namespace CountMinSketch

/-- Constructor `CountMinSketch::new` (lines 38-48): rounds `width` and also `depth` up to
the next power of two, allocates a zero table of size `w * d`.  The fixed
library seeds of the source select one concrete keyed hash; here the hash is a
parameter since `ahash` is external to the repository. -/
def new (width depth : ℕ) (hasher : ℕ → ℕ) : CountMinSketch :=
  let w := next_power_of_two width
  let d := next_power_of_two depth
  ⟨w, w - 1, d, List.replicate (w * d) 0, hasher⟩

/-- Constructor `CountMinSketch::with_seeds` (lines 55-65): identical to `new` except the
four seed values pick the keyed hash; modelled by passing the resulting hash
function directly. -/
def with_seeds (width depth : ℕ) (hasher : ℕ → ℕ) : CountMinSketch :=
  let w := next_power_of_two width
  let d := next_power_of_two depth
  ⟨w, w - 1, d, List.replicate (w * d) 0, hasher⟩

/-- Accessor `get_width` (lines 67-69). -/
def get_width (s : CountMinSketch) : ℕ := s.width

/-- Accessor `get_depth` (lines 72-74). -/
def get_depth (s : CountMinSketch) : ℕ := s.depth

end CountMinSketch

/-- The secondary multiplier derivation inside `calculate_indices`
(lines 81-85): add a large odd constant, two xorshift-multiply rounds, a final
xorshift, then force the lowest bit to 1.  All `u64` wrapping arithmetic is
`% 2 ^ 64`. -/
def deriveH2 (h1 : ℕ) : ℕ :=
  let a := (h1 + 0x9E3779B97F4A7C15) % 2 ^ 64
  let b := ((a ^^^ (a >>> 30)) * 0xBF58476D1CE4E5B9) % 2 ^ 64
  let c := ((b ^^^ (b >>> 27)) * 0x94D049BB133111EB) % 2 ^ 64
  let d := c ^^^ (c >>> 31)
  d ||| 1

/-- Function `calculate_indices` (lines 77-91) as the list of flattened cell indices it
feeds to its callback, in order: for each row `i < depth` the bucket is
`(h1 + i * h2) mod 2 ^ 64` masked by `width_mask`, and the cell index is
`i * width + bucket`. -/
def calculate_indices (h1 depth width mask : ℕ) : List ℕ :=
  (List.range depth).map
    (fun i => i * width + (((h1 + i * deriveH2 h1) % 2 ^ 64) &&& mask))

namespace CountMinSketch

/-- Models `hasher.hash_one(item)` (lines 99/116): the external keyed hash produces a
`u64`, modelled by reducing the abstract hash value `% 2 ^ 64`. -/
def hash_one (s : CountMinSketch) (x : ℕ) : ℕ := s.hasher x % 2 ^ 64

/-- The index list both `increment` and `estimate` traverse for an item. -/
def indices (s : CountMinSketch) (x : ℕ) : List ℕ :=
  calculate_indices (s.hash_one x) s.depth s.width s.width_mask

end CountMinSketch

/-- One callback step of `increment` (lines 104-107): saturating `+1` on the
cell at `idx`. -/
def bumpCell (t : List ℕ) (idx : ℕ) : List ℕ :=
  t.set idx (satAdd (t.getD idx 0) 1)

namespace CountMinSketch

/-- Method `increment` (lines 98-108): bump each of the `depth` cells of the item by 1
with saturating addition. -/
def increment (s : CountMinSketch) (x : ℕ) : CountMinSketch :=
  { s with table := (s.indices x).foldl bumpCell s.table }

/-- Method `estimate` (lines 115-127): fold the running minimum (seeded with
`u64::MAX`) of the cells of the item, then the final sentinel check that maps a
minimum still equal to `u64::MAX` to `0`. -/
def estimate (s : CountMinSketch) (x : ℕ) : ℕ :=
  let m := (s.indices x).foldl
    (fun mv idx => if s.table.getD idx 0 < mv then s.table.getD idx 0 else mv)
    U64_MAX
  if m = U64_MAX then 0 else m

/-- Method `merge` (lines 133-141), in state-passing form: the first component is the
`Result`, the second the post-state of `self` (`other` is read-only).  On
success each cell of `self` paired by the zip gets the saturating sum; cells
of `self` beyond the length of `other` are untouched, exactly as the
`iter_mut().zip(...)`. -/
def merge (s other : CountMinSketch) : Except String Unit × CountMinSketch :=
  if s.width ≠ other.width ∨ s.depth ≠ other.depth then
    (Except.error "Incompatible dimensions", s)
  else
    (Except.ok (),
      { s with table :=
          List.zipWith satAdd s.table other.table
            ++ s.table.drop other.table.length })

end CountMinSketch

/-- The row slice `table[d*width .. d*width+width]` used by `l1_distance` and
`cosine_similarity`, modelled total by `drop`/`take` (in range for every
constructed sketch, whose table length is `width * depth`). -/
def sliceRow (t : List ℕ) (start w : ℕ) : List ℕ := (t.drop start).take w

/-- Contribution of one row in `l1_distance` (lines 153-157): the sum of
absolute differences over the zipped row slices. -/
def rowL1 (s other : CMSRust.CountMinSketch) (d : ℕ) : ℕ :=
  (List.zipWith u64AbsDiff
    (sliceRow s.table (d * s.width) s.width)
    (sliceRow other.table (d * s.width) s.width)).sum

namespace CountMinSketch

/-- Method `l1_distance` (lines 145-161): dimension guard, then the minimum (seeded
with `u64::MAX`) over the per-row L1 sums. -/
def l1_distance (s other : CountMinSketch) : Except String ℕ :=
  if s.width ≠ other.width ∨ s.depth ≠ other.depth then
    Except.error "Incompatible dimensions."
  else
    Except.ok ((List.range s.depth).foldl
      (fun m d => min m (rowL1 s other d)) U64_MAX)

/-- Method `cosine_similarity` (lines 165-184): only the dimension guard and the
`Result` shape are modelled; the per-row `f64` dot-product/norm/sqrt reduction
is floating-point arithmetic outside this embedding, so the success payload is
collapsed to `Unit`. -/
def cosine_similarity (s other : CountMinSketch) : Except String Unit :=
  if s.width ≠ other.width ∨ s.depth ≠ other.depth then
    Except.error "Incompatible dimensions."
  else
    Except.ok ()

/-- Method `clear` (lines 190-192): replace the table by a fresh zero table of size
`width * depth`; dimensions and hash configuration untouched. -/
def clear (s : CountMinSketch) : CountMinSketch :=
  { s with table := List.replicate (s.width * s.depth) 0 }

end CountMinSketch

/-- Folding `increment` over a finite stream of items, in order. -/
def incrementList (s : CountMinSketch) (xs : List ℕ) : CountMinSketch :=
  xs.foldl CountMinSketch.increment s

/-- The true number of times `increment x` occurs in the stream `xs`. -/
def trueCount (xs : List ℕ) (x : ℕ) : ℕ := xs.count x

/-- How many times the flattened cell `i` is bumped while the stream `xs` is
incremented into a sketch with the dimensions and hash of `s`: the sum, over the
stream, of the multiplicity of `i` in the index list of each item. -/
def totalHits (s : CountMinSketch) (xs : List ℕ) (i : ℕ) : ℕ :=
  (xs.map (fun y => (s.indices y).count i)).sum

/-- A width-1/depth-1 sketch whose single counter has been driven to
`u64::MAX` by `2 ^ 64 - 1` increments of item `0`: the saturated state on
which the `min_val == u64::MAX` sentinel of `estimate` misfires. -/
def satState : CountMinSketch :=
  incrementList (CountMinSketch.new 1 1 (fun _ => 0)) (List.replicate U64_MAX 0)

/-! Generic lemmas about running-minimum folds, shared by `estimate` and
`l1_distance`. -/

lemma foldl_min_le_init (f : ℕ → ℕ) (L : List ℕ) (a : ℕ) :
    L.foldl (fun m i => min m (f i)) a ≤ a := by
  induction L generalizing a with
  | nil => simp
  | cons b L ih => exact le_trans (ih _) (min_le_left _ _)

lemma foldl_min_le_of_mem (f : ℕ → ℕ) (L : List ℕ) :
    ∀ (a d : ℕ), d ∈ L → L.foldl (fun m i => min m (f i)) a ≤ f d := by
  induction L with
  | nil => intro a d h; cases h
  | cons b L ih =>
    intro a d h
    rcases List.mem_cons.mp h with hb | hL
    · subst hb
      exact le_trans (foldl_min_le_init f L _) (min_le_right _ _)
    · exact ih _ _ hL

lemma le_foldl_min (f : ℕ → ℕ) (L : List ℕ) (a c : ℕ) (ha : c ≤ a)
    (hL : ∀ d ∈ L, c ≤ f d) :
    c ≤ L.foldl (fun m i => min m (f i)) a := by
  induction L generalizing a with
  | nil => simpa using ha
  | cons b L ih =>
    exact ih _ (le_min ha (hL b (List.mem_cons_self b L)))
      (fun d hd => hL d (List.mem_cons_of_mem b hd))

/-- The running-minimum closure of `estimate` (lines 121-123) is the binary
minimum. -/
lemma estimate_fold_eq (t : List ℕ) :
    (fun mv idx => if t.getD idx 0 < mv then t.getD idx 0 else mv)
      = (fun mv idx => min mv (t.getD idx 0)) := by
  funext mv idx
  rcases Nat.lt_or_ge (t.getD idx 0) mv with h | h
  · rw [if_pos h]
    exact (Nat.min_eq_right (Nat.le_of_lt h)).symm
  · rw [if_neg (Nat.not_lt.mpr h)]
    exact (Nat.min_eq_left h).symm

/-! `getD`/`set` bookkeeping. -/

lemma getD_set_ne (t : List ℕ) {a i : ℕ} (h : a ≠ i) (v : ℕ) :
    (t.set a v).getD i 0 = t.getD i 0 := by
  rw [List.getD_eq_getElem?_getD, List.getD_eq_getElem?_getD,
    List.getElem?_set_ne h]

lemma getD_set_eq (t : List ℕ) {i : ℕ} (h : i < t.length) (v : ℕ) :
    (t.set i v).getD i 0 = v := by
  rw [List.getD_eq_getElem?_getD, List.getElem?_set_eq_of_lt v h]
  rfl

lemma getD_replicate_zero (n i : ℕ) :
    (List.replicate n (0 : ℕ)).getD i 0 = 0 := by
  rw [List.getD_eq_getElem?_getD, List.getElem?_replicate]
  split <;> rfl

/-! `bumpCell` and its folds. -/

lemma satAdd_le (a b : ℕ) : satAdd a b ≤ U64_MAX := min_le_right _ _

lemma length_bumpCell (t : List ℕ) (i : ℕ) :
    (bumpCell t i).length = t.length := List.length_set t i _

lemma foldl_bumpCell_length (L : List ℕ) (t : List ℕ) :
    (L.foldl bumpCell t).length = t.length := by
  induction L generalizing t with
  | nil => rfl
  | cons a L ih => rw [List.foldl_cons, ih, length_bumpCell]

lemma getD_bumpCell (t : List ℕ) (a : ℕ) {i : ℕ} (hi : i < t.length) :
    (bumpCell t a).getD i 0
      = if a = i then satAdd (t.getD i 0) 1 else t.getD i 0 := by
  by_cases hai : a = i
  · subst hai
    rw [if_pos rfl]
    exact getD_set_eq t hi _
  · rw [if_neg hai]
    exact getD_set_ne t hai _

/-- Arithmetic core of chaining a saturating bump with later bumps,
stated over an arbitrary clamp `M`. -/
lemma min_sat_add (c k M : ℕ) : min (min (c + 1) M + k) M = min (c + (k + 1)) M := by
  omega

lemma foldl_bumpCell_getD (L : List ℕ) (t : List ℕ) {i : ℕ}
    (hi : i < t.length) (hc : t.getD i 0 ≤ U64_MAX) :
    (L.foldl bumpCell t).getD i 0 = min (t.getD i 0 + L.count i) U64_MAX := by
  induction L generalizing t with
  | nil =>
    rw [List.foldl_nil, List.count_nil, Nat.add_zero]
    exact (Nat.min_eq_left hc).symm
  | cons a L ih =>
    rw [List.foldl_cons]
    have hi' : i < (bumpCell t a).length := by rwa [length_bumpCell]
    have hb := getD_bumpCell t a hi
    by_cases hai : a = i
    · rw [if_pos hai] at hb
      have hc' : (bumpCell t a).getD i 0 ≤ U64_MAX := by
        rw [hb]; exact satAdd_le _ _
      rw [ih _ hi' hc', hb, List.count_cons]
      have hbeq : (a == i) = true := beq_iff_eq.mpr hai
      rw [hbeq, if_pos rfl]
      unfold satAdd
      exact min_sat_add _ _ _
    · rw [if_neg hai] at hb
      have hc' : (bumpCell t a).getD i 0 ≤ U64_MAX := by rwa [hb]
      rw [ih _ hi' hc', hb, List.count_cons]
      have hbeq2 : (a == i) = false := beq_eq_false_iff_ne.mpr hai
      rw [hbeq2, if_neg Bool.false_ne_true, Nat.add_zero]

/-! `increment` and `incrementList`: field preservation and the closed form of
every cell. -/

lemma increment_width (s : CountMinSketch) (x : ℕ) :
    (s.increment x).width = s.width := rfl

lemma increment_depth (s : CountMinSketch) (x : ℕ) :
    (s.increment x).depth = s.depth := rfl

lemma increment_indices (s : CountMinSketch) (x y : ℕ) :
    (s.increment x).indices y = s.indices y := rfl

lemma increment_table (s : CountMinSketch) (x : ℕ) :
    (s.increment x).table = (s.indices x).foldl bumpCell s.table := rfl

lemma increment_table_length (s : CountMinSketch) (x : ℕ) :
    (s.increment x).table.length = s.table.length :=
  foldl_bumpCell_length _ _

lemma increment_getD (s : CountMinSketch) (x : ℕ) {i : ℕ}
    (hi : i < s.table.length) (hc : s.table.getD i 0 ≤ U64_MAX) :
    (s.increment x).table.getD i 0
      = min (s.table.getD i 0 + (s.indices x).count i) U64_MAX :=
  foldl_bumpCell_getD _ _ hi hc

lemma incrementList_width (s : CountMinSketch) (xs : List ℕ) :
    (incrementList s xs).width = s.width := by
  induction xs generalizing s with
  | nil => rfl
  | cons y ys ih => exact ih (s.increment y)

lemma incrementList_depth (s : CountMinSketch) (xs : List ℕ) :
    (incrementList s xs).depth = s.depth := by
  induction xs generalizing s with
  | nil => rfl
  | cons y ys ih => exact ih (s.increment y)

lemma incrementList_indices (s : CountMinSketch) (xs : List ℕ) (y : ℕ) :
    (incrementList s xs).indices y = s.indices y := by
  induction xs generalizing s with
  | nil => rfl
  | cons z zs ih => exact ih (s.increment z)

lemma incrementList_table_length (s : CountMinSketch) (xs : List ℕ) :
    (incrementList s xs).table.length = s.table.length := by
  induction xs generalizing s with
  | nil => rfl
  | cons y ys ih =>
    exact (ih (s.increment y)).trans (increment_table_length s y)

lemma totalHits_nil (s : CountMinSketch) (i : ℕ) : totalHits s [] i = 0 := rfl

lemma totalHits_cons (s : CountMinSketch) (y : ℕ) (ys : List ℕ) (i : ℕ) :
    totalHits s (y :: ys) i = (s.indices y).count i + totalHits s ys i := by
  unfold totalHits
  rw [List.map_cons, List.sum_cons]

/-- Second arithmetic chaining fact, over an arbitrary clamp `M`. -/
lemma min_sat_chain (c k j M : ℕ) :
    min (min (c + k) M + j) M = min (c + (k + j)) M := by
  omega

lemma incrementList_getD (xs : List ℕ) (s : CountMinSketch) {i : ℕ}
    (hi : i < s.table.length) (hc : s.table.getD i 0 ≤ U64_MAX) :
    (incrementList s xs).table.getD i 0
      = min (s.table.getD i 0 + totalHits s xs i) U64_MAX := by
  induction xs generalizing s with
  | nil =>
    rw [totalHits_nil, Nat.add_zero]
    exact (Nat.min_eq_left hc).symm
  | cons y ys ih =>
    have hstep : incrementList s (y :: ys) = incrementList (s.increment y) ys := rfl
    have hi' : i < (s.increment y).table.length := by
      rwa [increment_table_length]
    have hg := increment_getD s y hi hc
    have hc' : (s.increment y).table.getD i 0 ≤ U64_MAX := by
      rw [hg]; exact min_le_right _ _
    have hind : ∀ z, (s.increment y).indices z = s.indices z :=
      increment_indices s y
    have hth : totalHits (s.increment y) ys i = totalHits s ys i := by
      unfold totalHits
      simp only [hind]
    rw [hstep, ih _ hi' hc', hth, hg, totalHits_cons]
    exact min_sat_chain _ _ _ _

/-! Facts about the index list `calculate_indices` produces. -/

lemma length_indices (s : CountMinSketch) (x : ℕ) :
    (s.indices x).length = s.depth := by
  unfold CountMinSketch.indices calculate_indices
  rw [List.length_map, List.length_range]

lemma indices_lt (s : CountMinSketch) (x : ℕ) (hw : 0 < s.width)
    (hm : s.width_mask = s.width - 1) :
    ∀ idx ∈ s.indices x, idx < s.depth * s.width := by
  intro idx hidx
  unfold CountMinSketch.indices calculate_indices at hidx
  rcases List.mem_map.mp hidx with ⟨i, hi, hEq⟩
  have hiRange : i < s.depth := List.mem_range.mp hi
  have hbucket :
      ((s.hash_one x + i * deriveH2 (s.hash_one x)) % 2 ^ 64) &&& s.width_mask
        < s.width := by
    calc ((s.hash_one x + i * deriveH2 (s.hash_one x)) % 2 ^ 64) &&& s.width_mask
        ≤ s.width_mask := Nat.and_le_right
      _ = s.width - 1 := hm
      _ < s.width := Nat.sub_lt hw Nat.one_pos
  calc idx = i * s.width
        + (((s.hash_one x + i * deriveH2 (s.hash_one x)) % 2 ^ 64) &&& s.width_mask) :=
        hEq.symm
    _ < i * s.width + s.width := Nat.add_lt_add_left hbucket _
    _ = (i + 1) * s.width := (Nat.succ_mul i s.width).symm
    _ ≤ s.depth * s.width := Nat.mul_le_mul_right _ (Nat.succ_le_of_lt hiRange)

lemma indices_nodup (s : CountMinSketch) (x : ℕ) (hw : 0 < s.width)
    (hm : s.width_mask = s.width - 1) : (s.indices x).Nodup := by
  unfold CountMinSketch.indices calculate_indices
  refine List.Nodup.map ?_ (List.nodup_range s.depth)
  intro i j hij
  simp only at hij
  by_contra hne
  have hbi : ∀ k : ℕ,
      ((s.hash_one x + k * deriveH2 (s.hash_one x)) % 2 ^ 64) &&& s.width_mask
        < s.width := by
    intro k
    calc ((s.hash_one x + k * deriveH2 (s.hash_one x)) % 2 ^ 64) &&& s.width_mask
        ≤ s.width_mask := Nat.and_le_right
      _ = s.width - 1 := hm
      _ < s.width := Nat.sub_lt hw Nat.one_pos
  rcases Nat.lt_or_ge i j with hlt | hge
  · have h1 : i * s.width
        + (((s.hash_one x + i * deriveH2 (s.hash_one x)) % 2 ^ 64) &&& s.width_mask)
        < j * s.width := by
      calc i * s.width + _ < i * s.width + s.width := Nat.add_lt_add_left (hbi i) _
        _ = (i + 1) * s.width := (Nat.succ_mul i s.width).symm
        _ ≤ j * s.width := Nat.mul_le_mul_right _ (Nat.succ_le_of_lt hlt)
    have h2 : j * s.width
        ≤ j * s.width
          + (((s.hash_one x + j * deriveH2 (s.hash_one x)) % 2 ^ 64) &&& s.width_mask) :=
      Nat.le_add_right _ _
    omega
  · have hlt2 : j < i := Nat.lt_of_le_of_ne hge (fun h => hne h.symm)
    have h1 : j * s.width
        + (((s.hash_one x + j * deriveH2 (s.hash_one x)) % 2 ^ 64) &&& s.width_mask)
        < i * s.width := by
      calc j * s.width + _ < j * s.width + s.width := Nat.add_lt_add_left (hbi j) _
        _ = (j + 1) * s.width := (Nat.succ_mul j s.width).symm
        _ ≤ i * s.width := Nat.mul_le_mul_right _ (Nat.succ_le_of_lt hlt2)
    have h2 : i * s.width
        ≤ i * s.width
          + (((s.hash_one x + i * deriveH2 (s.hash_one x)) % 2 ^ 64) &&& s.width_mask) :=
      Nat.le_add_right _ _
    omega

lemma count_indices_le_one (s : CountMinSketch) (x : ℕ) (hw : 0 < s.width)
    (hm : s.width_mask = s.width - 1) (i : ℕ) : (s.indices x).count i ≤ 1 :=
  List.nodup_iff_count_le_one.mp (indices_nodup s x hw hm) i

lemma count_le_totalHits (s : CountMinSketch) (xs : List ℕ) (x i : ℕ)
    (hmem : i ∈ s.indices x) : xs.count x ≤ totalHits s xs i := by
  induction xs with
  | nil => simp [totalHits_nil]
  | cons y ys ih =>
    rw [totalHits_cons, List.count_cons]
    by_cases hxy : y = x
    · subst hxy
      have h1 : 1 ≤ (s.indices y).count i := List.count_pos_iff.mpr hmem
      have hb : (y == y) = true := beq_self_eq_true y
      rw [hb, if_pos rfl]
      omega
    · have : (y == x) = false := beq_eq_false_iff_ne.mpr hxy
      rw [this, if_neg Bool.false_ne_true, Nat.add_zero]
      omega

lemma totalHits_le_length (s : CountMinSketch) (xs : List ℕ) (i : ℕ)
    (hone : ∀ y, (s.indices y).count i ≤ 1) : totalHits s xs i ≤ xs.length := by
  induction xs with
  | nil => simp [totalHits_nil]
  | cons y ys ih =>
    rw [totalHits_cons, List.length_cons]
    have := hone y
    omega

/-! Constructor facts. -/

lemma one_le_np2Aux : ∀ (fuel n : ℕ), 1 ≤ np2Aux fuel n := by
  intro fuel
  induction fuel with
  | zero => intro n; exact Nat.le_refl 1
  | succ f ih =>
    intro n
    unfold np2Aux
    split
    · exact Nat.le_refl 1
    · have := ih ((n + 1) / 2)
      omega

lemma one_le_next_power_of_two (n : ℕ) : 1 ≤ next_power_of_two n :=
  one_le_np2Aux n n

lemma new_width (w d : ℕ) (hasher : ℕ → ℕ) :
    (CountMinSketch.new w d hasher).width = next_power_of_two w := rfl

lemma new_depth (w d : ℕ) (hasher : ℕ → ℕ) :
    (CountMinSketch.new w d hasher).depth = next_power_of_two d := rfl

lemma new_width_mask (w d : ℕ) (hasher : ℕ → ℕ) :
    (CountMinSketch.new w d hasher).width_mask
      = (CountMinSketch.new w d hasher).width - 1 := rfl

lemma new_getD (w d : ℕ) (hasher : ℕ → ℕ) (i : ℕ) :
    (CountMinSketch.new w d hasher).table.getD i 0 = 0 :=
  getD_replicate_zero _ i

lemma new_table_length (w d : ℕ) (hasher : ℕ → ℕ) :
    (CountMinSketch.new w d hasher).table.length
      = (CountMinSketch.new w d hasher).width
        * (CountMinSketch.new w d hasher).depth :=
  List.length_replicate _ _

/-- Every cell of a freshly built sketch after a stream of increments. -/
lemma stream_cell (w d : ℕ) (hasher : ℕ → ℕ) (xs : List ℕ) (i : ℕ)
    (hi : i < (CountMinSketch.new w d hasher).table.length) :
    (incrementList (CountMinSketch.new w d hasher) xs).table.getD i 0
      = min (totalHits (CountMinSketch.new w d hasher) xs i) U64_MAX := by
  rw [incrementList_getD xs _ hi
    (by rw [new_getD]; exact Nat.zero_le _), new_getD, Nat.zero_add]

/-! The `estimate` fold, rewritten to `min` form, and its key consequence. -/

lemma estimate_eq (s : CountMinSketch) (x : ℕ) :
    s.estimate x
      = (if (s.indices x).foldl
            (fun mv idx => min mv (s.table.getD idx 0)) U64_MAX = U64_MAX
         then 0
         else (s.indices x).foldl
            (fun mv idx => min mv (s.table.getD idx 0)) U64_MAX) := by
  unfold CountMinSketch.estimate
  rw [estimate_fold_eq]

/-- If every cell an item hashes to is at least `c` and some cell it hashes to
is below `u64::MAX`, the estimate is at least `c`. -/
lemma le_estimate_of_cells (s : CountMinSketch) (x c : ℕ)
    (hlow : ∀ idx ∈ s.indices x, c ≤ s.table.getD idx 0)
    (hup : ∃ idx ∈ s.indices x, s.table.getD idx 0 < U64_MAX) :
    c ≤ s.estimate x := by
  obtain ⟨idx0, hmem0, hlt0⟩ := hup
  rw [estimate_eq]
  have h1 : (s.indices x).foldl
      (fun mv idx => min mv (s.table.getD idx 0)) U64_MAX
        ≤ s.table.getD idx0 0 :=
    foldl_min_le_of_mem (fun idx => s.table.getD idx 0) (s.indices x)
      U64_MAX idx0 hmem0
  have h2 : (s.indices x).foldl
      (fun mv idx => min mv (s.table.getD idx 0)) U64_MAX < U64_MAX :=
    Nat.lt_of_le_of_lt h1 hlt0
  have h3 : c ≤ (s.indices x).foldl
      (fun mv idx => min mv (s.table.getD idx 0)) U64_MAX :=
    le_foldl_min (fun idx => s.table.getD idx 0) (s.indices x) U64_MAX c
      (Nat.le_of_lt (Nat.lt_of_le_of_lt (hlow idx0 hmem0) hlt0)) hlow
  rw [if_neg (Nat.ne_of_lt h2)]
  exact h3

/-! `merge` on compatible sketches, and facts about the saturated state. -/

lemma getD_zipWith_satAdd (u : List ℕ) :
    ∀ (v : List ℕ), u.length = v.length → ∀ i,
      (List.zipWith satAdd u v).getD i 0 = satAdd (u.getD i 0) (v.getD i 0) := by
  induction u with
  | nil =>
    intro v hv i
    have hv0 : v = [] := List.length_eq_zero.mp hv.symm
    subst hv0
    show (0 : ℕ) = satAdd 0 0
    unfold satAdd
    exact (Nat.min_eq_left (Nat.zero_le _)).symm
  | cons a u ih =>
    intro v hv i
    cases v with
    | nil => simp at hv
    | cons b v =>
      cases i with
      | zero => rfl
      | succ j =>
        show (List.zipWith satAdd u v).getD j 0 = satAdd (u.getD j 0) (v.getD j 0)
        exact ih v (by simpa using hv) j

lemma merge_ok (a b : CountMinSketch) (hw : a.width = b.width)
    (hd : a.depth = b.depth) :
    a.merge b = (Except.ok (),
      { a with table := List.zipWith satAdd a.table b.table
          ++ a.table.drop b.table.length }) := by
  unfold CountMinSketch.merge
  rw [if_neg]
  rintro (h | h)
  · exact h hw
  · exact h hd

lemma merge_table (a b : CountMinSketch) (hw : a.width = b.width)
    (hd : a.depth = b.depth) (hlen : a.table.length = b.table.length) :
    (a.merge b).2.table = List.zipWith satAdd a.table b.table := by
  rw [merge_ok a b hw hd]
  show List.zipWith satAdd a.table b.table ++ a.table.drop b.table.length
      = List.zipWith satAdd a.table b.table
  rw [← hlen, List.drop_length, List.append_nil]

lemma merge_indices (a b : CountMinSketch) (hw : a.width = b.width)
    (hd : a.depth = b.depth) (x : ℕ) :
    (a.merge b).2.indices x = a.indices x := by
  rw [merge_ok a b hw hd]
  rfl

/-- Saturating addition of two clamped quantities, over an arbitrary clamp. -/
lemma satAdd_min_min (p q M : ℕ) : min (min p M + min q M) M = min (p + q) M := by
  omega

lemma totalHits_replicate (s : CountMinSketch) (n y i : ℕ) :
    totalHits s (List.replicate n y) i = n * ((s.indices y).count i) := by
  unfold totalHits
  rw [List.map_replicate, List.sum_replicate, smul_eq_mul]

lemma get_width_eq (s : CountMinSketch) : s.get_width = s.width := rfl

lemma get_depth_eq (s : CountMinSketch) : s.get_depth = s.depth := rfl

lemma satState_eq :
    satState = incrementList (CountMinSketch.new 1 1 (fun _ => 0))
      (List.replicate U64_MAX 0) := rfl

lemma satState_table_len : satState.table.length = 1 := by
  rw [satState_eq, incrementList_table_length]
  decide

lemma satState_getD : satState.table.getD 0 0 = U64_MAX := by
  rw [satState_eq,
    stream_cell 1 1 (fun _ => 0) (List.replicate U64_MAX 0) 0 (by decide),
    totalHits_replicate]
  have hcount : (((CountMinSketch.new 1 1 (fun _ => 0)).indices 0).count 0) = 1 := by
    decide
  rw [hcount, Nat.mul_one, min_self]

lemma satState_table : satState.table = [U64_MAX] := by
  have h1 := satState_table_len
  have h2 := satState_getD
  rcases htab : satState.table with _ | ⟨a, tl⟩
  · rw [htab] at h1; simp at h1
  · rw [htab] at h1 h2
    rcases tl with _ | ⟨b, tl2⟩
    · show [a] = [U64_MAX]
      rw [show ([a] : List ℕ).getD 0 0 = a from rfl] at h2
      rw [h2]
    · simp at h1

lemma satState_indices : satState.indices 0 = [0] := by
  rw [satState_eq, incrementList_indices]
  decide

/-- On a sketch whose item-0 index list is `[0]` and whose table is the single
saturated counter, the sentinel of `estimate` returns 0. -/
lemma estimate_singleton_max (s : CountMinSketch)
    (hIdx : s.indices 0 = [0]) (hT : s.table = [U64_MAX]) :
    s.estimate 0 = 0 := by
  rw [estimate_eq, hIdx, hT]
  decide

lemma trueCount_replicate_max :
    trueCount (List.replicate U64_MAX 0) 0 = U64_MAX := by
  unfold trueCount
  rw [List.count_replicate]
  rfl

/-- C1: for every constructed sketch (positive requested width and depth, any
seeded hash), every finite increment stream whose total length stays below
`u64::MAX` (so no counter saturates and the `min_val == u64::MAX` sentinel of
`estimate` cannot fire), and every item, the estimate is at least the true
number of increments of that item. -/
theorem estimate_ge_trueCount (w d : ℕ) (hasher : ℕ → ℕ) (xs : List ℕ)
    (x : ℕ) (_hw : 0 < w) (_hd : 0 < d) (hlen : xs.length < U64_MAX) :
    trueCount xs x
      ≤ (incrementList (CountMinSketch.new w d hasher) xs).estimate x := by
  have hw0 : 0 < (CountMinSketch.new w d hasher).width :=
    one_le_next_power_of_two w
  have hd0 : 0 < (CountMinSketch.new w d hasher).depth :=
    one_le_next_power_of_two d
  have hm0 : (CountMinSketch.new w d hasher).width_mask
      = (CountMinSketch.new w d hasher).width - 1 := new_width_mask w d hasher
  have hidx : (incrementList (CountMinSketch.new w d hasher) xs).indices x
      = (CountMinSketch.new w d hasher).indices x :=
    incrementList_indices _ _ _
  apply le_estimate_of_cells
  · intro idx hmem
    rw [hidx] at hmem
    have hltT : idx < (CountMinSketch.new w d hasher).table.length := by
      rw [new_table_length, Nat.mul_comm]
      exact indices_lt _ x hw0 hm0 idx hmem
    have hcell := stream_cell w d hasher xs idx hltT
    have hge := count_le_totalHits (CountMinSketch.new w d hasher) xs x idx hmem
    have hxc : xs.count x ≤ xs.length := List.count_le_length x xs
    show trueCount xs x
        ≤ (incrementList (CountMinSketch.new w d hasher) xs).table.getD idx 0
    rw [hcell]
    exact le_min hge (Nat.le_of_lt (Nat.lt_of_le_of_lt hxc hlen))
  · have hpos : 0 < ((CountMinSketch.new w d hasher).indices x).length := by
      rw [length_indices]; exact hd0
    obtain ⟨idx0, hmem0⟩ := List.exists_mem_of_length_pos hpos
    refine ⟨idx0, by rw [hidx]; exact hmem0, ?_⟩
    have hltT : idx0 < (CountMinSketch.new w d hasher).table.length := by
      rw [new_table_length, Nat.mul_comm]
      exact indices_lt _ x hw0 hm0 idx0 hmem0
    have hcell := stream_cell w d hasher xs idx0 hltT
    have hone : ∀ y, ((CountMinSketch.new w d hasher).indices y).count idx0 ≤ 1 :=
      fun y => count_indices_le_one _ y hw0 hm0 idx0
    have hth := totalHits_le_length (CountMinSketch.new w d hasher) xs idx0 hone
    rw [hcell]
    exact Nat.lt_of_le_of_lt (Nat.le_trans (min_le_left _ _) hth) hlen

/-- C1 witness: the no-underestimation theorem applied at a concrete sketch
and stream. -/
theorem estimate_ge_trueCount_witness :
    0 < 1 ∧ ([0] : List ℕ).length < U64_MAX ∧
      trueCount [0] 0
        ≤ (incrementList (CountMinSketch.new 1 1 (fun _ => 0)) [0]).estimate 0 :=
  ⟨Nat.one_pos, by decide,
    estimate_ge_trueCount 1 1 (fun _ => 0) [0] 0 Nat.one_pos Nat.one_pos
      (by decide)⟩

/-- C1 counterexample: after `2 ^ 64 - 1` increments of item `0` on a
width-1/depth-1 sketch, the single counter saturates at `u64::MAX`, the
running minimum equals `u64::MAX`, and the sentinel of `estimate` returns `0`,
strictly below the true count. -/
theorem estimate_ge_trueCount_cex :
    ¬ (trueCount (List.replicate U64_MAX 0) 0 ≤ satState.estimate 0) := by
  rw [trueCount_replicate_max,
    estimate_singleton_max satState satState_indices satState_table]
  decide

/-- C4: a reachable saturated state (depth 1, not 0) on which `estimate`
returns `0` even though the minimum counter value over the single
index is `u64::MAX`: the `min_val == u64::MAX` sentinel misfires. -/
theorem estimate_not_min_at_saturation :
    0 < satState.get_depth
      ∧ satState.indices 0 = [0]
      ∧ satState.table.getD 0 0 = U64_MAX
      ∧ satState.estimate 0 = 0 := by
  refine ⟨?_, satState_indices, satState_getD,
    estimate_singleton_max satState satState_indices satState_table⟩
  have hdep : satState.get_depth = 1 := by
    rw [get_depth_eq, satState_eq, incrementList_depth]
    decide
  rw [hdep]
  decide

/-- Estimate of the merged sketch of two streams over the same constructed
sketch dimensions: at least the summed counts, provided the combined stream
length stays below `u64::MAX`. -/
lemma merged_stream_estimate (w d : ℕ) (hasher : ℕ → ℕ) (xs ys : List ℕ)
    (x : ℕ) (hlen : xs.length + ys.length < U64_MAX) :
    xs.count x + ys.count x
      ≤ ((incrementList (CountMinSketch.new w d hasher) xs).merge
          (incrementList (CountMinSketch.new w d hasher) ys)).2.estimate x := by
  have hwA : (incrementList (CountMinSketch.new w d hasher) xs).width
      = (incrementList (CountMinSketch.new w d hasher) ys).width := by
    rw [incrementList_width, incrementList_width]
  have hdA : (incrementList (CountMinSketch.new w d hasher) xs).depth
      = (incrementList (CountMinSketch.new w d hasher) ys).depth := by
    rw [incrementList_depth, incrementList_depth]
  have hlenA : (incrementList (CountMinSketch.new w d hasher) xs).table.length
      = (incrementList (CountMinSketch.new w d hasher) ys).table.length := by
    rw [incrementList_table_length, incrementList_table_length]
  have hw0 : 0 < (CountMinSketch.new w d hasher).width :=
    one_le_next_power_of_two w
  have hd0 : 0 < (CountMinSketch.new w d hasher).depth :=
    one_le_next_power_of_two d
  have hm0 := new_width_mask w d hasher
  have hTab := merge_table _ _ hwA hdA hlenA
  apply le_estimate_of_cells
  · intro idx hmem
    rw [merge_indices _ _ hwA hdA, incrementList_indices] at hmem
    have hiT : idx < (CountMinSketch.new w d hasher).table.length := by
      rw [new_table_length, Nat.mul_comm]
      exact indices_lt _ x hw0 hm0 idx hmem
    have hA := stream_cell w d hasher xs idx hiT
    have hB := stream_cell w d hasher ys idx hiT
    have hzip := getD_zipWith_satAdd _ _ hlenA idx
    have hgex := count_le_totalHits (CountMinSketch.new w d hasher) xs x idx hmem
    have hgey := count_le_totalHits (CountMinSketch.new w d hasher) ys x idx hmem
    have hxc : xs.count x ≤ xs.length := List.count_le_length x xs
    have hyc : ys.count x ≤ ys.length := List.count_le_length x ys
    rw [hTab, hzip, hA, hB]
    unfold satAdd
    rw [satAdd_min_min]
    exact le_min (Nat.add_le_add hgex hgey)
      (Nat.le_of_lt (Nat.lt_of_le_of_lt (Nat.add_le_add hxc hyc) hlen))
  · have hpos : 0 < ((CountMinSketch.new w d hasher).indices x).length := by
      rw [length_indices]; exact hd0
    obtain ⟨idx0, hmem0⟩ := List.exists_mem_of_length_pos hpos
    refine ⟨idx0, ?_, ?_⟩
    · rw [merge_indices _ _ hwA hdA, incrementList_indices]
      exact hmem0
    · have hiT : idx0 < (CountMinSketch.new w d hasher).table.length := by
        rw [new_table_length, Nat.mul_comm]
        exact indices_lt _ x hw0 hm0 idx0 hmem0
      have hA := stream_cell w d hasher xs idx0 hiT
      have hB := stream_cell w d hasher ys idx0 hiT
      have hzip := getD_zipWith_satAdd _ _ hlenA idx0
      have hone : ∀ y, (((CountMinSketch.new w d hasher).indices y).count idx0) ≤ 1 :=
        fun y => count_indices_le_one _ y hw0 hm0 idx0
      have hthx := totalHits_le_length (CountMinSketch.new w d hasher) xs idx0 hone
      have hthy := totalHits_le_length (CountMinSketch.new w d hasher) ys idx0 hone
      rw [hTab, hzip, hA, hB]
      unfold satAdd
      rw [satAdd_min_min]
      exact Nat.lt_of_le_of_lt
        (Nat.le_trans (min_le_left _ _) (Nat.add_le_add hthx hthy)) hlen

/-- C6: a successful merge (equal width and depth, and — as the struct
invariant guarantees — equal table length) reports `Ok` and makes every cell
the saturating sum of the corresponding operand cells; consequently, for sketches
built over the same dimensions and hash from disjoint streams whose combined
length stays below `u64::MAX`, the estimate of the merged sketch dominates the sum
of the true counts. -/
theorem merge_cells_and_overestimate :
    (∀ a b : CountMinSketch, a.width = b.width → a.depth = b.depth →
        a.table.length = b.table.length →
        (a.merge b).1 = Except.ok ()
          ∧ ∀ i : ℕ, (a.merge b).2.table.getD i 0
              = satAdd (a.table.getD i 0) (b.table.getD i 0))
    ∧ (∀ (w d : ℕ) (hasher : ℕ → ℕ) (xs ys : List ℕ) (x : ℕ),
        0 < w → 0 < d → xs.Disjoint ys → xs.length + ys.length < U64_MAX →
        trueCount xs x + trueCount ys x
          ≤ ((incrementList (CountMinSketch.new w d hasher) xs).merge
              (incrementList (CountMinSketch.new w d hasher) ys)).2.estimate x) := by
  constructor
  · intro a b hw hd hlen
    refine ⟨?_, ?_⟩
    · rw [merge_ok a b hw hd]
    · intro i
      rw [merge_table a b hw hd hlen]
      exact getD_zipWith_satAdd a.table b.table hlen i
  · intro w d hasher xs ys x hw hd hdisj hlen
    exact merged_stream_estimate w d hasher xs ys x hlen

/-- C6 witness: both conjuncts applied at concrete sketches and streams. -/
theorem merge_cells_and_overestimate_witness :
    (((CountMinSketch.new 2 2 (fun n => n)).merge
        (CountMinSketch.new 2 2 (fun n => n))).1 = Except.ok ())
    ∧ (0 < 1 ∧ ([0] : List ℕ).Disjoint [1]
        ∧ ([0] : List ℕ).length + ([1] : List ℕ).length < U64_MAX)
    ∧ trueCount [0] 0 + trueCount [1] 0
        ≤ ((incrementList (CountMinSketch.new 1 1 (fun _ => 0)) [0]).merge
            (incrementList (CountMinSketch.new 1 1 (fun _ => 0)) [1])).2.estimate 0 := by
  have hdisj : ([0] : List ℕ).Disjoint [1] := by
    intro a ha hb
    simp at ha hb
    omega
  refine ⟨(merge_cells_and_overestimate.1
      (CountMinSketch.new 2 2 (fun n => n))
      (CountMinSketch.new 2 2 (fun n => n)) rfl rfl rfl).1,
    ⟨Nat.one_pos, hdisj, by decide⟩,
    merge_cells_and_overestimate.2 1 1 (fun _ => 0) [0] [1] 0
      Nat.one_pos Nat.one_pos hdisj (by decide)⟩

/-- C6 counterexample: merging the saturated sketch with a freshly built one
(streams `replicate (2^64-1) 0` and `[]`, trivially disjoint) succeeds, yet
the merged estimate is 0, far below the summed true counts — the claim
without a bound on the stream length fails. -/
theorem merge_overestimate_cex :
    (List.replicate U64_MAX 0).Disjoint ([] : List ℕ)
    ∧ ((incrementList (CountMinSketch.new 1 1 (fun _ => 0))
          (List.replicate U64_MAX 0)).merge
        (incrementList (CountMinSketch.new 1 1 (fun _ => 0)) [])).1
        = Except.ok ()
    ∧ ¬ (trueCount (List.replicate U64_MAX 0) 0 + trueCount [] 0
        ≤ ((incrementList (CountMinSketch.new 1 1 (fun _ => 0))
              (List.replicate U64_MAX 0)).merge
            (incrementList (CountMinSketch.new 1 1 (fun _ => 0)) [])).2.estimate 0) := by
  rw [← satState_eq,
    show incrementList (CountMinSketch.new 1 1 (fun _ => 0)) ([] : List ℕ)
        = CountMinSketch.new 1 1 (fun _ => 0) from rfl]
  have hw : satState.width = (CountMinSketch.new 1 1 (fun _ => 0)).width := by
    rw [satState_eq, incrementList_width]
  have hd : satState.depth = (CountMinSketch.new 1 1 (fun _ => 0)).depth := by
    rw [satState_eq, incrementList_depth]
  have hlen : satState.table.length
      = (CountMinSketch.new 1 1 (fun _ => 0)).table.length := by
    rw [satState_eq, incrementList_table_length]
  have hBtab : (CountMinSketch.new 1 1 (fun _ => 0)).table = [0] := by decide
  have hzip : List.zipWith satAdd [U64_MAX] [(0 : ℕ)] = [U64_MAX] := by decide
  have hT := merge_table satState (CountMinSketch.new 1 1 (fun _ => 0)) hw hd hlen
  rw [satState_table, hBtab, hzip] at hT
  have hIdxM : ((satState.merge (CountMinSketch.new 1 1 (fun _ => 0))).2).indices 0
      = [0] := by
    rw [merge_indices _ _ hw hd, satState_indices]
  have hEst := estimate_singleton_max _ hIdxM hT
  refine ⟨fun a ha => List.not_mem_nil a, ?_, ?_⟩
  · rw [merge_ok _ _ hw hd]
  · rw [hEst, trueCount_replicate_max]
    decide

/-- A running minimum whose every step contributes 0 collapses to 0 unless no
step runs. -/
lemma foldl_min_const_zero (L : List ℕ) :
    ∀ a : ℕ, L.foldl (fun m _ => min m (0 : ℕ)) a
      = if L.length = 0 then a else 0 := by
  induction L with
  | nil => intro a; rfl
  | cons b L ih =>
    intro a
    rw [List.foldl_cons, Nat.min_zero, ih 0]
    have : (b :: L).length ≠ 0 := by simp
    rw [if_neg this]
    split <;> rfl

/-- C5: when widths or depths differ, `merge` returns the error and hands back
`self` unchanged (and, by the read-only signature, does not touch `other`),
and `l1_distance` and `cosine_similarity` return their error values. -/
theorem dimension_mismatch_errors (a b : CountMinSketch)
    (h : a.width ≠ b.width ∨ a.depth ≠ b.depth) :
    a.merge b = (Except.error "Incompatible dimensions", a)
      ∧ a.l1_distance b = Except.error "Incompatible dimensions."
      ∧ a.cosine_similarity b = Except.error "Incompatible dimensions." := by
  refine ⟨?_, ?_, ?_⟩
  · unfold CountMinSketch.merge
    rw [if_pos h]
  · unfold CountMinSketch.l1_distance
    rw [if_pos h]
  · unfold CountMinSketch.cosine_similarity
    rw [if_pos h]

/-- C5 witness: concrete sketches with different widths. -/
theorem dimension_mismatch_errors_witness :
    ((CountMinSketch.new 1 1 (fun _ => 0)).width
        ≠ (CountMinSketch.new 2 1 (fun _ => 0)).width
      ∨ (CountMinSketch.new 1 1 (fun _ => 0)).depth
        ≠ (CountMinSketch.new 2 1 (fun _ => 0)).depth)
    ∧ (CountMinSketch.new 1 1 (fun _ => 0)).merge
        (CountMinSketch.new 2 1 (fun _ => 0))
        = (Except.error "Incompatible dimensions",
            CountMinSketch.new 1 1 (fun _ => 0))
    ∧ (CountMinSketch.new 1 1 (fun _ => 0)).l1_distance
        (CountMinSketch.new 2 1 (fun _ => 0))
        = Except.error "Incompatible dimensions."
    ∧ (CountMinSketch.new 1 1 (fun _ => 0)).cosine_similarity
        (CountMinSketch.new 2 1 (fun _ => 0))
        = Except.error "Incompatible dimensions." := by
  have h : (CountMinSketch.new 1 1 (fun _ => 0)).width
      ≠ (CountMinSketch.new 2 1 (fun _ => 0)).width
      ∨ (CountMinSketch.new 1 1 (fun _ => 0)).depth
        ≠ (CountMinSketch.new 2 1 (fun _ => 0)).depth :=
    Or.inl (by decide)
  obtain ⟨h1, h2, h3⟩ := dimension_mismatch_errors
    (CountMinSketch.new 1 1 (fun _ => 0)) (CountMinSketch.new 2 1 (fun _ => 0)) h
  exact ⟨h, h1, h2, h3⟩

/-- C7: for every constructed sketch, the table length is `width * depth` and
every flattened index the scheme produces for any item is strictly below it:
all unchecked accesses in `increment`/`estimate` are in bounds. -/
theorem indices_in_bounds (w d : ℕ) (hasher : ℕ → ℕ) (x : ℕ)
    (_hw : 0 < w) (_hd : 0 < d) :
    (CountMinSketch.new w d hasher).table.length
        = (CountMinSketch.new w d hasher).width
          * (CountMinSketch.new w d hasher).depth
      ∧ ∀ idx ∈ (CountMinSketch.new w d hasher).indices x,
          idx < (CountMinSketch.new w d hasher).width
            * (CountMinSketch.new w d hasher).depth := by
  refine ⟨new_table_length w d hasher, ?_⟩
  intro idx hidx
  rw [Nat.mul_comm]
  exact indices_lt (CountMinSketch.new w d hasher) x
    (one_le_next_power_of_two w) (new_width_mask w d hasher) idx hidx

/-- C7 witness: the bound theorem at a concrete sketch and item. -/
theorem indices_in_bounds_witness :
    0 < 3 ∧ 0 < 2
      ∧ ((CountMinSketch.new 3 2 (fun n => n * 7919)).table.length
          = (CountMinSketch.new 3 2 (fun n => n * 7919)).width
            * (CountMinSketch.new 3 2 (fun n => n * 7919)).depth
        ∧ ∀ idx ∈ (CountMinSketch.new 3 2 (fun n => n * 7919)).indices 5,
            idx < (CountMinSketch.new 3 2 (fun n => n * 7919)).width
              * (CountMinSketch.new 3 2 (fun n => n * 7919)).depth) :=
  ⟨by decide, by decide,
    indices_in_bounds 3 2 (fun n => n * 7919) 5 (by decide) (by decide)⟩

/-- C8: `clear` zero-fills the table of size `width * depth` and preserves the
dimensions, mask and hash configuration; afterwards every estimate is 0. -/
theorem clear_resets (s : CountMinSketch) (x : ℕ) :
    s.clear.estimate x = 0
      ∧ s.clear.get_width = s.get_width
      ∧ s.clear.get_depth = s.get_depth
      ∧ s.clear.hasher = s.hasher
      ∧ s.clear.width_mask = s.width_mask
      ∧ s.clear.table = List.replicate (s.width * s.depth) 0 := by
  refine ⟨?_, rfl, rfl, rfl, rfl, rfl⟩
  rw [estimate_eq]
  have hz : ∀ idx, s.clear.table.getD idx 0 = 0 :=
    fun idx => getD_replicate_zero _ idx
  have hfun : (fun (mv idx : ℕ) => min mv (s.clear.table.getD idx 0))
      = fun (mv _ : ℕ) => min mv (0 : ℕ) := by
    funext mv idx
    rw [hz idx]
  rw [hfun, foldl_min_const_zero]
  split
  · rw [if_pos rfl]
  · rw [if_neg (by decide)]

/-- C9: `l1_distance` between sketches of equal dimensions and identical
tables succeeds with distance 0 (in particular for a sketch against itself),
the result being trivially non-negative. -/
theorem l1_distance_identical_zero (a b : CountMinSketch)
    (hw : a.width = b.width) (hd : a.depth = b.depth) (ht : a.table = b.table)
    (hdep : 0 < a.depth) :
    a.l1_distance b = Except.ok 0
      ∧ ∀ r : ℕ, a.l1_distance b = Except.ok r → 0 ≤ r := by
  refine ⟨?_, fun r _ => Nat.zero_le r⟩
  unfold CountMinSketch.l1_distance
  rw [if_neg (by rintro (h | h); exacts [h hw, h hd])]
  have habs : (fun z : ℕ => u64AbsDiff z z) = fun _ : ℕ => (0 : ℕ) := by
    funext z
    unfold u64AbsDiff
    rw [if_pos (Nat.le_refl z), Nat.sub_self]
  have hrow : ∀ r : ℕ, rowL1 a b r = 0 := by
    intro r
    unfold rowL1
    rw [← ht, List.zipWith_same, habs, List.map_const']
    simp
  have hfun : (fun (m r : ℕ) => min m (rowL1 a b r))
      = fun (m _ : ℕ) => min m (0 : ℕ) := by
    funext m r
    rw [hrow r]
  rw [hfun, foldl_min_const_zero]
  rw [List.length_range, if_neg (Nat.ne_of_gt hdep)]

/-- C9 witness: a concretely incremented sketch against itself. -/
theorem l1_distance_identical_zero_witness :
    0 < (incrementList (CountMinSketch.new 2 2 (fun n => n * 3)) [1, 2, 3]).depth
      ∧ (incrementList (CountMinSketch.new 2 2 (fun n => n * 3)) [1, 2, 3]).l1_distance
          (incrementList (CountMinSketch.new 2 2 (fun n => n * 3)) [1, 2, 3])
          = Except.ok 0 := by
  have hdep : 0 < (incrementList (CountMinSketch.new 2 2 (fun n => n * 3)) [1, 2, 3]).depth := by
    rw [incrementList_depth]
    decide
  exact ⟨hdep,
    (l1_distance_identical_zero _ _ rfl rfl rfl hdep).1⟩

/-- C2: the `with_params(0.01, 0.01)` derivation: the ideal-real values of the
two `f64` expressions of lines 29-30 are `ceil(e/0.01) = 272` and
`ceil(ln(1/0.01)) = 5` (both far from integer boundaries, so `f64` rounding
cannot change them), and the `new` constructor called on `(272, 5)` yields
effective width 512 — but effective depth 8, not 5, because `new` also rounds
`depth` up to the next power of two. -/
theorem with_params_dims :
    (⌈Real.exp 1 / (0.01 : ℝ)⌉ = 272)
      ∧ (⌈Real.log (1 / (0.01 : ℝ))⌉ = 5)
      ∧ (CountMinSketch.new 272 5 (fun _ => 0)).get_width = 512
      ∧ (CountMinSketch.new 272 5 (fun _ => 0)).get_depth = 8 := by
  have he1 := Real.exp_one_gt_d9
  have he2 := Real.exp_one_lt_d9
  refine ⟨?_, ?_, by decide, by decide⟩
  · rw [Int.ceil_eq_iff]
    have hdiv : Real.exp 1 / (0.01 : ℝ) = Real.exp 1 * 100 := by
      rw [div_eq_mul_inv]
      norm_num
    rw [hdiv]
    constructor
    · push_cast
      nlinarith
    · push_cast
      nlinarith
  · have h100 : (1 : ℝ) / (0.01 : ℝ) = 100 := by norm_num
    rw [h100, Int.ceil_eq_iff]
    constructor
    · push_cast
      have h4 : Real.exp ((4 : ℕ) : ℝ) < 100 := by
        rw [← Real.exp_one_pow]
        have hp : Real.exp 1 ^ (4 : ℕ) < (2.7182818286 : ℝ) ^ (4 : ℕ) :=
          pow_lt_pow_left₀ he2 (le_of_lt (Real.exp_pos 1)) (by norm_num)
        nlinarith
      have h4' : Real.exp (4 : ℝ) < 100 := by
        have : ((4 : ℕ) : ℝ) = (4 : ℝ) := by norm_num
        rwa [this] at h4
      have := (Real.lt_log_iff_exp_lt (by norm_num : (0 : ℝ) < 100)).mpr h4'
      linarith
    · push_cast
      have h5 : (100 : ℝ) ≤ Real.exp ((5 : ℕ) : ℝ) := by
        rw [← Real.exp_one_pow]
        have hp : (2.7182818283 : ℝ) ^ (5 : ℕ) ≤ Real.exp 1 ^ (5 : ℕ) :=
          pow_le_pow_left₀ (by norm_num) (le_of_lt he1) 5
        nlinarith
      have h5' : (100 : ℝ) ≤ Real.exp (5 : ℝ) := by
        have : ((5 : ℕ) : ℝ) = (5 : ℝ) := by norm_num
        rwa [this] at h5
      exact (Real.log_le_iff_le_exp (by norm_num : (0 : ℝ) < 100)).mpr h5'

/-- C3: `new` rounds the width up to the next power of two as claimed
(100 to 128, 1024 unchanged), but — contrary to the claim — it also rounds
the depth: requested depth 5 yields effective depth 8, for `with_seeds` as
well. -/
theorem new_rounds_depth_too :
    (CountMinSketch.new 100 5 (fun _ => 0)).get_width = 128
      ∧ (CountMinSketch.new 1024 5 (fun _ => 0)).get_width = 1024
      ∧ (CountMinSketch.new 100 5 (fun _ => 0)).get_depth = 8
      ∧ (CountMinSketch.with_seeds 100 5 (fun _ => 0)).get_depth = 8
      ∧ (8 : ℕ) ≠ 5 := by
  refine ⟨by decide, by decide, by decide, by decide, by decide⟩

end CMSRust
